import Mathlib

/-!
Verification of the offline-download subsystem of MoonTVPlus
(`src/lib/offline-download-manager.ts`).

The TypeScript code is shallowly embedded: the in-memory task map becomes a
list of task records in insertion order (JavaScript `Map` iterates in
insertion order), number fields become `Nat`, `Buffer`s become `List Nat`
(byte values), and the JavaScript string operations used by the code
(`startsWith`, `includes`, `endsWith`, `trim`, `toLowerCase`, `split`,
`substring(0, lastIndexOf('/') + 1)`) are modelled by executable functions
on `String` defined below.  Network and filesystem effects are passed in as
explicit function arguments or recorded in explicit result values, and the
asynchronous interleaving between a running download and `deleteTask` is
modelled by a small-step state machine.
-/

namespace MoonTV

/-! ## JavaScript string operations -/

/-- Does the character list `s` start with the pattern `p`?  This models
`String.prototype.startsWith` of JavaScript restricted to the `data` of the
strings involved. -/
def lBegins : List Char → List Char → Bool
  | [], _ => true
  | _ :: _, [] => false
  | p :: ps, c :: cs => p == c && lBegins ps cs

/-- Models the JavaScript expression `s.startsWith(pat)`. -/
def sBegins (s pat : String) : Bool :=
  lBegins pat.data s.data

/-- Does the character list `s` contain the pattern `p` as a contiguous
sub-list?  This models `String.prototype.includes`. -/
def lHasSub : List Char → List Char → Bool
  | [], pat => lBegins pat []
  | s@(_ :: t), pat => lBegins pat s || lHasSub t pat

/-- Models the JavaScript expression `s.includes(pat)`. -/
def sHasSub (s pat : String) : Bool :=
  lHasSub s.data pat.data

/-- Models the JavaScript expression `s.endsWith(pat)`. -/
def sEndsWith (s pat : String) : Bool :=
  lBegins pat.data.reverse s.data.reverse

/-- Models the JavaScript expression `s.trim()` (the playlist code only ever
meets ASCII whitespace, which `Char.isWhitespace` covers). -/
def jsTrim (s : String) : String :=
  String.mk (((s.data.dropWhile Char.isWhitespace).reverse.dropWhile
    Char.isWhitespace).reverse)

/-- Lower-cases one ASCII character, as `String.prototype.toLowerCase` does
on the ASCII range (the URLs involved here are ASCII). -/
def jsCharLower (c : Char) : Char :=
  if 65 ≤ c.toNat ∧ c.toNat ≤ 90 then Char.ofNat (c.toNat + 32) else c

/-- Models the JavaScript expression `s.toLowerCase()` on ASCII strings. -/
def jsToLowerCase (s : String) : String :=
  String.mk (s.data.map jsCharLower)

/-- Models the JavaScript expression `s.substring(0, s.lastIndexOf('/') + 1)`:
everything up to and including the last `'/'`, and the empty string when no
`'/'` occurs. -/
def lastSlashCut (s : String) : String :=
  String.mk ((s.data.reverse.dropWhile (fun c => c != '/')).reverse)

theorem lBegins_append (p t : List Char) : lBegins p (p ++ t) = true := by
  induction p with
  | nil => rfl
  | cons c cs ih => simp [lBegins, ih]

theorem lBegins_iff_exists {p s : List Char} :
    lBegins p s = true ↔ ∃ t, s = p ++ t := by
  induction p generalizing s with
  | nil => simp [lBegins]
  | cons c cs ih =>
    cases s with
    | nil => simp [lBegins]
    | cons d ds =>
      simp only [lBegins, Bool.and_eq_true, beq_iff_eq, ih, List.cons_append,
        List.cons.injEq]
      constructor
      · rintro ⟨rfl, t, rfl⟩
        exact ⟨t, rfl, rfl⟩
      · rintro ⟨t, rfl, rfl⟩
        exact ⟨rfl, t, rfl⟩

theorem lHasSub_of_append (p : List Char) :
    ∀ a b : List Char, lHasSub (a ++ p ++ b) p = true := by
  intro a
  induction a with
  | nil =>
    intro b
    cases h : p ++ b with
    | nil =>
      have hp : p = [] := by
        cases p with
        | nil => rfl
        | cons c cs => simp at h
      subst hp
      simp_all [lHasSub, lBegins]
    | cons c cs =>
      simp only [List.nil_append] at h ⊢
      rw [h, lHasSub, ← h, lBegins_append, Bool.true_or]
  | cons c cs ih =>
    intro b
    simp only [List.cons_append, lHasSub, Bool.or_eq_true]
    exact Or.inr (ih b)

theorem sHasSub_of_sEndsWith {s pat : String} (h : sEndsWith s pat = true) :
    sHasSub s pat = true := by
  unfold sEndsWith at h
  rcases lBegins_iff_exists.mp h with ⟨t, ht⟩
  have hs : s.data = t.reverse ++ pat.data := by
    have := congrArg List.reverse ht
    simpa using this
  unfold sHasSub
  rw [hs]
  have := lHasSub_of_append pat.data t.reverse []
  simpa using this

theorem sEndsWith_append_ts (x : String) : sEndsWith (x ++ ".ts") ".ts" = true := by
  unfold sEndsWith
  rw [show (x ++ ".ts").data = x.data ++ ".ts".data from String.data_append ..]
  rw [List.reverse_append]
  exact lBegins_append _ _

theorem not_m3u8_of_ends_ts {s : String} (h : sEndsWith s ".ts" = true) :
    sEndsWith s ".m3u8" = false := by
  unfold sEndsWith at h ⊢
  cases hs : s.data.reverse with
  | nil => rw [hs] at h; simp [lBegins] at h
  | cons c cs =>
    rw [hs] at h
    have hts : (".ts" : String).data.reverse = ['s', 't', '.'] := rfl
    rw [hts] at h
    simp only [lBegins, Bool.and_eq_true, beq_iff_eq] at h
    have hc : c = 's' := h.1.symm
    have hm : (".m3u8" : String).data.reverse = ['8', 'u', '3', 'm', '.'] := rfl
    rw [hm, hc]
    simp [lBegins]

/-! ## The task record

`OfflineDownloadTask` mirrors the exported interface of the same name;
`status` is the four-valued union type, `error` and `filePath` are the
optional fields. -/

inductive TaskStatus
  | pending
  | downloading
  | completed
  | error
deriving DecidableEq

structure OfflineDownloadTask where
  id : String
  url : String
  source : String
  videoId : String
  videoTitle : String
  episodeIndex : Nat
  status : TaskStatus
  progress : Nat
  totalSize : Nat
  downloadedSize : Nat
  error : Option String
  createdAt : Nat
  filePath : Option String
  fileName : String
deriving DecidableEq

/-- The argument record of `addTask`. -/
structure TaskData where
  url : String
  source : String
  videoId : String
  videoTitle : String
  episodeIndex : Nat
deriving DecidableEq

/-- Models `generateFileName`: the template
`source + "_" + videoId + "_" + episodeIndex + ".ts"`. -/
def generateFileName (source videoId : String) (episodeIndex : Nat) : String :=
  source ++ "_" ++ videoId ++ "_" ++ toString episodeIndex ++ ".ts"

/-- The deduplication predicate of `addTask`: same `source`, `videoId` and
`episodeIndex`. -/
def sameKey (d : TaskData) (t : OfflineDownloadTask) : Bool :=
  t.source == d.source && t.videoId == d.videoId && t.episodeIndex == d.episodeIndex

/-- The fresh task record built inside `addTask` (`crypto.randomBytes` is
modelled by the explicit `freshId` argument and `Date.now()` by `now`). -/
def newTask (d : TaskData) (freshId : String) (now : Nat) : OfflineDownloadTask :=
  { id := freshId
    url := d.url
    source := d.source
    videoId := d.videoId
    videoTitle := d.videoTitle
    episodeIndex := d.episodeIndex
    status := .pending
    progress := 0
    totalSize := 0
    downloadedSize := 0
    error := none
    createdAt := now
    filePath := none
    fileName := generateFileName d.source d.videoId d.episodeIndex }

/-- Models `addTask` on the task store.  The store is the list of tasks in
insertion order, `find?` is `Array.from(this.tasks.values()).find(...)`, and
`Map.set` with a fresh key appends.  The returned pair is the task id handed
back to the caller and the store after the call. -/
def addTask (tasks : List OfflineDownloadTask) (d : TaskData) (freshId : String)
    (now : Nat) : String × List OfflineDownloadTask :=
  match tasks.find? (sameKey d) with
  | some t =>
    if t.status == .completed || t.status == .downloading || t.status == .pending then
      (t.id, tasks)
    else
      (freshId, tasks ++ [newTask d freshId now])
  | none => (freshId, tasks ++ [newTask d freshId now])

/-- A sample submission used to exercise `addTask` on concrete stores. -/
def demoData : TaskData :=
  { url := "https://h/a/media.m3u8", source := "src", videoId := "vid"
    videoTitle := "title", episodeIndex := 1 }

/-- A task for `demoData` that has already failed. -/
def demoErrorTask : OfflineDownloadTask :=
  { newTask demoData "idA" 0 with status := TaskStatus.error }

/-- A second task for the same key, still pending. -/
def demoPendingTask : OfflineDownloadTask :=
  newTask demoData "idB" 0

/-- Claim C1, counterexample.  The store can hold two tasks with the same
`(source, videoId, episodeIndex)` key (an old `error` attempt and a newer
`pending` one, a state `addTask` itself produces).  `find?` returns the
older `error` task first, so even though a `pending` task with the key
exists, `addTask` returns a fresh id and appends a third task — contradicting
the claim that a `pending` duplicate always gets the existing task's id and
no new task. -/
theorem addTask_pending_duplicate_counterexample :
    sameKey demoData demoPendingTask = true ∧
    demoPendingTask.status = TaskStatus.pending ∧
    demoPendingTask ∈ [demoErrorTask, demoPendingTask] ∧
    (addTask [demoErrorTask, demoPendingTask] demoData "fresh" 3).1 ≠ demoPendingTask.id ∧
    (addTask [demoErrorTask, demoPendingTask] demoData "fresh" 3).2.length = 3 := by
  refine ⟨rfl, rfl, by simp, ?_, rfl⟩
  decide

/-- Claim C1, amended.  `addTask` deduplicates against the FIRST task in
insertion order whose `(source, videoId, episodeIndex)` matches: when that
task's status is `pending`, `downloading` or `completed` its id is returned
and the store is unchanged; when it is `error` (or when no task matches) a
new task is appended and its fresh id — distinct from every stored id — is
returned. -/
theorem addTask_dedup_firstMatch (tasks : List OfflineDownloadTask) (d : TaskData)
    (freshId : String) (now : Nat) (hfresh : ∀ t ∈ tasks, t.id ≠ freshId) :
    (∀ t, tasks.find? (sameKey d) = some t → t.status ≠ TaskStatus.error →
      addTask tasks d freshId now = (t.id, tasks)) ∧
    (∀ t, tasks.find? (sameKey d) = some t → t.status = TaskStatus.error →
      addTask tasks d freshId now = (freshId, tasks ++ [newTask d freshId now]) ∧
        freshId ≠ t.id) ∧
    (tasks.find? (sameKey d) = none →
      addTask tasks d freshId now = (freshId, tasks ++ [newTask d freshId now])) := by
  refine ⟨?_, ?_, ?_⟩
  · intro t ht hne
    have hcond : (t.status == TaskStatus.completed || t.status == TaskStatus.downloading
        || t.status == TaskStatus.pending) = true := by
      cases hs : t.status <;> simp_all
    simp [addTask, ht, hcond]
  · intro t ht herr
    have hcond : (t.status == TaskStatus.completed || t.status == TaskStatus.downloading
        || t.status == TaskStatus.pending) = false := by
      simp [herr]
    have hmem : t ∈ tasks := List.mem_of_find?_eq_some ht
    exact ⟨by simp [addTask, ht, hcond], fun h => hfresh t hmem h.symm⟩
  · intro hnone
    simp [addTask, hnone]

/-- Witness for the amended claim C1: on a store holding one pending task
with the submitted key, `addTask` hands back that task's id and leaves the
store unchanged. -/
theorem addTask_dedup_firstMatch_witness :
    addTask [demoPendingTask] demoData "fresh" 7 = (demoPendingTask.id, [demoPendingTask]) := by
  have h := addTask_dedup_firstMatch [demoPendingTask] demoData "fresh" 7 (by decide)
  exact h.1 demoPendingTask (by decide) (by decide)

/-! ## Branching between the HLS and the direct-file path -/

/-- Models the test `task.url.toLowerCase().includes('.m3u8')` of
`startDownload`. -/
def isM3u8Url (url : String) : Bool :=
  sHasSub (jsToLowerCase url) ".m3u8"

inductive DownloadPath
  | hls
  | direct
deriving DecidableEq

/-- Models the branch of `startDownload`: `downloadM3u8` when `isM3u8Url`
holds of the task's URL, `downloadFile` otherwise. -/
def chooseDownloadPath (t : OfflineDownloadTask) : DownloadPath :=
  if isM3u8Url t.url then DownloadPath.hls else DownloadPath.direct

/-- Modelled from the spec: the claim's test, "the task URL's file extension
denotes an HLS manifest (.m3u8)", read as: the lowercased URL ends in
`.m3u8`, i.e. the part after its last dot is `m3u8`. -/
def specExtensionIsM3u8 (url : String) : Bool :=
  sEndsWith (jsToLowerCase url) ".m3u8"

/-- Claim C8, counterexample.  A URL whose file extension is `.ts` but whose
name contains `.m3u8` earlier takes the HLS path, so the branch is not taken
"exactly when the file extension denotes an HLS manifest". -/
theorem hls_branch_extension_counterexample :
    chooseDownloadPath { demoPendingTask with url := "https://h/v.m3u8.ts" }
        = DownloadPath.hls ∧
    specExtensionIsM3u8 "https://h/v.m3u8.ts" = false := by
  exact ⟨by decide, by decide⟩

/-- Claim C8, amended.  On the `pending → downloading` transition the engine
takes the HLS path exactly when the lowercased task URL contains `.m3u8` as a
substring; this includes every URL whose lowercased form ends in `.m3u8`
(file extension `m3u8`) but also URLs merely containing `.m3u8` elsewhere. -/
theorem hls_branch_amended (t : OfflineDownloadTask) :
    (chooseDownloadPath t = DownloadPath.hls ↔ isM3u8Url t.url = true) ∧
    (specExtensionIsM3u8 t.url = true → chooseDownloadPath t = DownloadPath.hls) := by
  constructor
  · unfold chooseDownloadPath
    by_cases h : isM3u8Url t.url <;> simp [h]
  · intro h
    have hsub : isM3u8Url t.url = true := sHasSub_of_sEndsWith h
    simp [chooseDownloadPath, hsub]

/-- Witness for the amended claim C8: a URL with extension `.m3u8` takes the
HLS path. -/
theorem hls_branch_amended_witness :
    chooseDownloadPath { demoPendingTask with url := "https://h/media.m3u8" }
      = DownloadPath.hls :=
  (hls_branch_amended { demoPendingTask with url := "https://h/media.m3u8" }).2
    (by decide)

/-! ## Playlist resolution -/

/-- Splits a character list at every occurrence of `sep`, keeping empty
pieces, as `String.prototype.split` does. -/
def lSplit (sep : Char) : List Char → List (List Char)
  | [] => [[]]
  | c :: cs =>
    match lSplit sep cs with
    | [] => [[]]
    | r :: rs => if c == sep then [] :: r :: rs else (c :: r) :: rs

/-- Models the JavaScript expression `s.split(sep)` for a one-character
separator. -/
def jsSplit (s : String) (sep : Char) : List String :=
  (lSplit sep s.data).map String.mk

/-- The components of a parsed absolute URL, as the `protocol`, `host` and
remaining (path, query, …) parts exposed by the WHATWG `URL` class that the
code reads.  `hrefOf` reassembles `href`; the code never reads any other
property. -/
structure JsURL where
  protocol : String
  host : String
  path : String
deriving DecidableEq

/-- The `href` of a parsed URL: `protocol + "//" + host + path`. -/
def hrefOf (u : JsURL) : String :=
  u.protocol ++ "//" ++ u.host ++ u.path

/-- Models the variant-selection loop of `downloadM3u8` (lines 222–236):
`flag` is the `isNextLineUrl` boolean, set once a `#EXT-X-STREAM-INF` line
has been seen and never cleared; the first later line whose trim is
non-blank and not a comment is returned. -/
def pickVariant : List String → Bool → Option String
  | [], _ => none
  | l :: rest, flag =>
    let t := jsTrim l
    if sBegins t "#EXT-X-STREAM-INF" then pickVariant rest true
    else if flag && t != "" && !(sBegins t "#") then some t
    else pickVariant rest flag

/-- The first line of the list whose trim is non-blank and not a comment. -/
def firstCandidate : List String → Option String
  | [] => none
  | l :: rest =>
    let t := jsTrim l
    if t != "" && !(sBegins t "#") then some t else firstCandidate rest

/-- Modelled from the spec: "the first non-comment, non-blank line following
a stream-variant-info line" — the first candidate line strictly after the
first `#EXT-X-STREAM-INF` line. -/
def specFirstVariant : List String → Option String
  | [] => none
  | l :: rest =>
    if sBegins (jsTrim l) "#EXT-X-STREAM-INF" then firstCandidate rest
    else specFirstVariant rest

/-- Models lines 243–254 of `downloadM3u8`: resolution of the chosen
media-playlist reference against the master URL.  `taskUrl` is the raw
`task.url` string and `u` its parse `new URL(task.url)`.  The final branch
models `new URL(ref, baseUrl).href` for a reference without scheme or
leading slash: for such references WHATWG resolution concatenates the base
directory and the reference (dot-segment normalization is not modelled; no
claim involves `.` or `..` segments). -/
def resolveMediaPlaylistUrl (taskUrl : String) (u : JsURL) (ref : String) : String :=
  if sBegins ref "http://" || sBegins ref "https://" then ref
  else if sBegins ref "/" then u.protocol ++ "//" ++ u.host ++ ref
  else lastSlashCut taskUrl ++ ref

/-- Modelled from the spec: the standard resolution of a scheme-relative
reference `//host/path` against a base URL keeps only the base's scheme. -/
def specSchemeRelative (u : JsURL) (ref : String) : String :=
  u.protocol ++ ref

/-- Models lines 218–262 of `downloadM3u8`: when the fetched content carries
a `#EXT-X-STREAM-INF` marker it is a master playlist, the first variant
reference is selected and resolved (an absent reference throws), and the
resolved address replaces the task's URL; otherwise the URL is unchanged. -/
def masterStage (taskUrl : String) (u : JsURL) (content : String) :
    Except String String :=
  if sHasSub content "#EXT-X-STREAM-INF" then
    match pickVariant (jsSplit content '\n') false with
    | some ref => Except.ok (resolveMediaPlaylistUrl taskUrl u ref)
    | none => Except.error "无法从 master playlist 中找到 media playlist URL"
  else Except.ok taskUrl

/-- The URL stage of `downloadM3u8` end to end: the effective media-playlist
URL stored back into `task.url`, paired with the base
`m3u8Url.href.substring(0, lastIndexOf('/') + 1)` (line 274) used for all
subsequent segment and key resolution.  `parse` models the `new URL`
constructor and `fetchText` the `fetchContent` helper. -/
def downloadM3u8UrlStage (parse : String → JsURL) (fetchText : String → String)
    (taskUrl : String) : Except String (String × String) :=
  match masterStage taskUrl (parse taskUrl) (fetchText taskUrl) with
  | Except.error e => Except.error e
  | Except.ok effUrl => Except.ok (effUrl, lastSlashCut (hrefOf (parse effUrl)))

theorem streamInf_starts_hash {t : String}
    (h : sBegins t "#EXT-X-STREAM-INF" = true) : sBegins t "#" = true := by
  unfold sBegins at h ⊢
  rcases lBegins_iff_exists.mp h with ⟨r, hr⟩
  refine lBegins_iff_exists.mpr ⟨"EXT-X-STREAM-INF".data ++ r, ?_⟩
  rw [hr]
  rfl

theorem pickVariant_true_eq (lines : List String) :
    pickVariant lines true = firstCandidate lines := by
  induction lines with
  | nil => rfl
  | cons l rest ih =>
    by_cases h : sBegins (jsTrim l) "#EXT-X-STREAM-INF" = true
    · have hh := streamInf_starts_hash h
      simp [pickVariant, firstCandidate, h, hh, ih]
    · simp [pickVariant, firstCandidate, eq_false_of_ne_true h, ih]

theorem pickVariant_false_eq (lines : List String) :
    pickVariant lines false = specFirstVariant lines := by
  induction lines with
  | nil => rfl
  | cons l rest ih =>
    by_cases h : sBegins (jsTrim l) "#EXT-X-STREAM-INF" = true
    · simp [pickVariant, specFirstVariant, h, pickVariant_true_eq]
    · simp [pickVariant, specFirstVariant, eq_false_of_ne_true h, ih]

/-- The master URL of the spec's resolution example, parsed. -/
def demoMasterURL : JsURL :=
  { protocol := "https:", host := "host", path := "/a/master.m3u8" }

/-- Claim C3, counterexample.  A scheme-relative reference `//cdn…` is
caught by the `startsWith('/')` branch and glued to the master's scheme and
host, producing `https://host//cdn…` — not the standard scheme-relative
resolution `https://cdn…`. -/
theorem master_scheme_relative_counterexample :
    resolveMediaPlaylistUrl "https://host/a/master.m3u8" demoMasterURL
        "//cdn.example.com/v/media.m3u8"
      = "https://host//cdn.example.com/v/media.m3u8" ∧
    specSchemeRelative demoMasterURL "//cdn.example.com/v/media.m3u8"
      = "https://cdn.example.com/v/media.m3u8" ∧
    "https://host//cdn.example.com/v/media.m3u8"
      ≠ "https://cdn.example.com/v/media.m3u8" := by
  exact ⟨rfl, rfl, by decide⟩

/-- Claim C3, amended.  In a master playlist the chosen reference is the
first non-comment, non-blank line following a stream-variant-info line; it
is resolved against the master URL with: absolute `http(s)://` references
kept, references starting with `/` — including scheme-relative `//`
references, which standard resolution would instead send to the referenced
host — prefixed with the master's scheme and host, and other relative
references appended to the master URL's directory; and the task's stored
`url` is rewritten to the resolved address, whose directory then serves as
the base for all subsequent segment and key resolution. -/
theorem master_playlist_resolution_amended :
    (∀ lines : List String, pickVariant lines false = specFirstVariant lines) ∧
    (∀ (taskUrl : String) (u : JsURL) (ref : String),
        (sBegins ref "http://" || sBegins ref "https://") = true →
        resolveMediaPlaylistUrl taskUrl u ref = ref) ∧
    (∀ (taskUrl : String) (u : JsURL) (ref : String),
        (sBegins ref "http://" || sBegins ref "https://") = false →
        sBegins ref "/" = true →
        resolveMediaPlaylistUrl taskUrl u ref = u.protocol ++ "//" ++ u.host ++ ref) ∧
    (∀ (taskUrl : String) (u : JsURL) (ref : String),
        (sBegins ref "http://" || sBegins ref "https://") = false →
        sBegins ref "/" = false →
        resolveMediaPlaylistUrl taskUrl u ref = lastSlashCut taskUrl ++ ref) ∧
    (∀ (parse : String → JsURL) (fetchText : String → String)
        (taskUrl effUrl : String),
        masterStage taskUrl (parse taskUrl) (fetchText taskUrl) = Except.ok effUrl →
        downloadM3u8UrlStage parse fetchText taskUrl
          = Except.ok (effUrl, lastSlashCut (hrefOf (parse effUrl)))) := by
  refine ⟨pickVariant_false_eq, ?_, ?_, ?_, ?_⟩
  · intro taskUrl u ref h
    simp [resolveMediaPlaylistUrl, h]
  · intro taskUrl u ref h h'
    simp [resolveMediaPlaylistUrl, h, h']
  · intro taskUrl u ref h h'
    simp [resolveMediaPlaylistUrl, h, h']
  · intro parse fetchText taskUrl effUrl h
    simp [downloadM3u8UrlStage, h]

/-- The master playlist of the spec's resolution example. -/
def demoMasterContent : String :=
  "#EXTM3U\n#EXT-X-STREAM-INF:BANDWIDTH=1280000\nmedia.m3u8\n"

/-- Witness for the amended claim C3: the spec's example — a master playlist
at `https://host/a/master.m3u8` whose first variant is `media.m3u8`
rewrites the task URL to `https://host/a/media.m3u8`, and segment resolution
continues from `https://host/a/`. -/
theorem master_playlist_resolution_amended_witness :
    downloadM3u8UrlStage (fun _ => demoMasterURL) (fun _ => demoMasterContent)
        "https://host/a/master.m3u8"
      = Except.ok ("https://host/a/media.m3u8",
          lastSlashCut (hrefOf demoMasterURL)) := by
  exact master_playlist_resolution_amended.2.2.2.2 (fun _ => demoMasterURL)
    (fun _ => demoMasterContent) "https://host/a/master.m3u8"
    "https://host/a/media.m3u8" (by rfl)

/-! ## Segment enumeration -/

/-- The test of line 315: the trimmed line is non-blank and not a comment. -/
def isCandidateLine (t : String) : Bool :=
  t != "" && !(sBegins t "#")

/-- Models lines 316–325 of `downloadM3u8`: resolution of one trimmed
segment line against the media playlist's URL parse `u` and directory
`baseUrl`. -/
def resolveLineUrl (u : JsURL) (baseUrl : String) (t : String) : String :=
  if sBegins t "http://" || sBegins t "https://" then t
  else if sBegins t "/" then u.protocol ++ "//" ++ u.host ++ t
  else baseUrl ++ t

/-- Models the segment-enumeration loop of `downloadM3u8` (lines 312–329):
every line whose trim is non-blank and not a comment is resolved, in order,
against `baseUrl = m3u8Url.href.substring(0, lastIndexOf('/') + 1)`. -/
def parseTsUrls (u : JsURL) (lines : List String) : List String :=
  lines.filterMap fun line =>
    if isCandidateLine (jsTrim line) then
      some (resolveLineUrl u (lastSlashCut (hrefOf u)) (jsTrim line))
    else none

/-- Models lines 312–333: the parsed segment URLs of the playlist text, with
an empty result raising the fatal no-playable-content error. -/
def segmentStage (u : JsURL) (content : String) : Except String (List String) :=
  let tsUrls := parseTsUrls u (jsSplit content '\n')
  if tsUrls.length == 0 then Except.error "未找到视频片段" else Except.ok tsUrls

/-- A URL string is absolute (for the purposes of the playlist code) when it
carries an explicit http or https scheme. -/
def isAbsoluteHttpUrl (s : String) : Bool :=
  sBegins s "http://" || sBegins s "https://"

theorem filterMap_if_eq_filter_map {α β γ : Type} (f : α → β) (p : β → Bool)
    (g : β → γ) (l : List α) :
    (l.filterMap fun a => if p (f a) then some (g (f a)) else none)
      = ((l.map f).filter p).map g := by
  induction l with
  | nil => rfl
  | cons a t ih =>
    by_cases h : p (f a) = true
    · simp [List.filterMap_cons, h, ih]
    · simp [List.filterMap_cons, eq_false_of_ne_true h, ih]

theorem dropWhile_ne_nil_of_mem {α : Type} {p : α → Bool} {l : List α} {a : α}
    (ha : a ∈ l) (hp : p a = false) : l.dropWhile p ≠ [] := by
  induction l with
  | nil => simp at ha
  | cons b t ih =>
    rw [List.dropWhile_cons]
    rcases List.mem_cons.mp ha with rfl | hmem
    · rw [if_neg (by simp [hp])]
      simp
    · by_cases hb : p b = true
      · rw [if_pos hb]
        exact ih hmem
      · rw [if_neg hb]
        simp

theorem strAppend_assoc (a b c : String) : (a ++ b) ++ c = a ++ (b ++ c) := by
  apply String.ext
  simp [String.data_append, List.append_assoc]

theorem lastSlashCut_append (a b : String) (hb : '/' ∈ b.data) :
    lastSlashCut (a ++ b) = a ++ lastSlashCut b := by
  have hne : b.data.reverse.dropWhile (fun c => c != '/') ≠ [] := by
    apply dropWhile_ne_nil_of_mem (a := '/')
    · simpa using hb
    · simp
  apply String.ext
  show ((a ++ b).data.reverse.dropWhile (fun c => c != '/')).reverse
      = (a ++ lastSlashCut b).data
  rw [String.data_append, String.data_append, List.reverse_append,
    List.dropWhile_append, if_neg (by simpa [List.isEmpty_iff] using hne),
    List.reverse_append, List.reverse_reverse]
  rfl

theorem sBegins_append_self (p x : String) : sBegins (p ++ x) p = true := by
  unfold sBegins
  rw [String.data_append]
  exact lBegins_append _ _

theorem sBegins_scheme (proto glued x y : String)
    (hlit : proto.data ++ ("//" : String).data = glued.data) :
    sBegins (((proto ++ "//") ++ x) ++ y) glued = true := by
  unfold sBegins
  apply lBegins_iff_exists.mpr
  refine ⟨x.data ++ y.data, ?_⟩
  rw [String.data_append, String.data_append, String.data_append, ← hlit]
  simp [List.append_assoc]

theorem resolveLineUrl_absolute (u : JsURL) (t : String)
    (hproto : u.protocol = "http:" ∨ u.protocol = "https:")
    (hpath : sBegins u.path "/" = true) :
    isAbsoluteHttpUrl (resolveLineUrl u (lastSlashCut (hrefOf u)) t) = true := by
  have hslash : '/' ∈ u.path.data := by
    rcases lBegins_iff_exists.mp hpath with ⟨r, hr⟩
    rw [hr]
    simp [show ("/" : String).data = ['/'] from rfl]
  unfold resolveLineUrl
  by_cases h1 : (sBegins t "http://" || sBegins t "https://") = true
  · rw [if_pos h1]
    exact h1
  · rw [if_neg (by simp_all)]
    by_cases h2 : sBegins t "/" = true
    · rw [if_pos h2]
      unfold isAbsoluteHttpUrl
      rw [Bool.or_eq_true]
      rcases hproto with hp | hp <;> rw [hp]
      · exact Or.inl (sBegins_scheme "http:" "http://" u.host t rfl)
      · exact Or.inr (sBegins_scheme "https:" "https://" u.host t rfl)
    · rw [if_neg (by simp_all)]
      have hcut : lastSlashCut (hrefOf u)
          = ((u.protocol ++ "//") ++ u.host) ++ lastSlashCut u.path :=
        lastSlashCut_append ((u.protocol ++ "//") ++ u.host) u.path hslash
      unfold isAbsoluteHttpUrl
      rw [Bool.or_eq_true, hcut, strAppend_assoc ((u.protocol ++ "//") ++ u.host)]
      rcases hproto with hp | hp <;> rw [hp]
      · exact Or.inl (sBegins_scheme "http:" "http://" u.host
          (lastSlashCut u.path ++ t) rfl)
      · exact Or.inr (sBegins_scheme "https:" "https://" u.host
          (lastSlashCut u.path ++ t) rfl)

/-- Claim C4.  For every playlist text and absolute http(s) base URL, the
segment parser returns the resolved form of exactly the non-comment,
non-blank lines, in original order (so exactly N segment URLs for N such
lines), every returned URL is absolute, and an empty result is turned into
the fatal error `未找到视频片段` instead of an empty download. -/
theorem media_playlist_parse (u : JsURL) (content : String)
    (hproto : u.protocol = "http:" ∨ u.protocol = "https:")
    (hpath : sBegins u.path "/" = true) :
    (parseTsUrls u (jsSplit content '\n')
      = (((jsSplit content '\n').map jsTrim).filter isCandidateLine).map
          (resolveLineUrl u (lastSlashCut (hrefOf u)))) ∧
    ((parseTsUrls u (jsSplit content '\n')).length
      = (((jsSplit content '\n').map jsTrim).filter isCandidateLine).length) ∧
    (∀ url ∈ parseTsUrls u (jsSplit content '\n'), isAbsoluteHttpUrl url = true) ∧
    (parseTsUrls u (jsSplit content '\n') = [] →
      segmentStage u content = Except.error "未找到视频片段") ∧
    (parseTsUrls u (jsSplit content '\n') ≠ [] →
      segmentStage u content = Except.ok (parseTsUrls u (jsSplit content '\n'))) := by
  have heq : parseTsUrls u (jsSplit content '\n')
      = (((jsSplit content '\n').map jsTrim).filter isCandidateLine).map
          (resolveLineUrl u (lastSlashCut (hrefOf u))) :=
    filterMap_if_eq_filter_map jsTrim isCandidateLine
      (resolveLineUrl u (lastSlashCut (hrefOf u))) (jsSplit content '\n')
  refine ⟨heq, by rw [heq, List.length_map], ?_, ?_, ?_⟩
  · intro url hurl
    rw [heq] at hurl
    rcases List.mem_map.mp hurl with ⟨t, _, rfl⟩
    exact resolveLineUrl_absolute u t hproto hpath
  · intro hnil
    simp [segmentStage, hnil]
  · intro hne
    have : (parseTsUrls u (jsSplit content '\n')).length ≠ 0 := by
      simpa [List.length_eq_zero] using hne
    simp [segmentStage, this]

/-- The media-playlist URL of the worked example, parsed. -/
def demoMediaURL : JsURL :=
  { protocol := "https:", host := "host", path := "/a/media.m3u8" }

/-- A media playlist exercising all three segment-line forms. -/
def demoMediaContent : String :=
  "#EXTM3U\n#EXTINF:4.0,\nseg1.ts\n#EXTINF:4.0,\n/abs/seg2.ts\nhttp://c/seg3.ts\n"

/-- Witness for claim C4: the example playlist has three non-comment lines
and parses to three absolute segment URLs in order. -/
theorem media_playlist_parse_witness :
    segmentStage demoMediaURL demoMediaContent
      = Except.ok ["https://host/a/seg1.ts", "https://host/abs/seg2.ts",
          "http://c/seg3.ts"] := by
  have h := media_playlist_parse demoMediaURL demoMediaContent (Or.inr rfl) (by decide)
  exact (h.2.2.2.2 (by decide)).trans (by rfl)

/-! ## AES-128-CBC segment decryption

Buffers are lists of byte values.  Node's `crypto` module supplies the AES
block primitive; `'aes-128-cbc'` with auto padding disabled is exactly CBC
chaining over that primitive, so the chaining — the part the repository's
code is responsible for configuring — is modelled here over an abstract
block cipher `D` (the AES-128 block decryption keyed by the downloaded key)
with the inverse block cipher `E` appearing in the round-trip law. -/

/-- Byte-wise xor of two buffers (CBC chaining step). -/
def xorBytes (a b : List Nat) : List Nat :=
  List.zipWith (fun x y => x ^^^ y) a b

/-- Splits a buffer into 16-byte blocks, structurally recursing on a fuel
bound so that the function reduces by computation; `chunks16` supplies the
buffer's length as fuel, which always suffices. -/
def chunks16Go : Nat → List Nat → List (List Nat)
  | _, [] => []
  | 0, _ :: _ => []
  | fuel + 1, c :: rest =>
    ((c :: rest).take 16) :: chunks16Go fuel ((c :: rest).drop 16)

/-- Splits a buffer into 16-byte cipher blocks, the block size of AES. -/
def chunks16 (l : List Nat) : List (List Nat) :=
  chunks16Go l.length l

theorem chunks16Go_congr :
    ∀ (f₁ : Nat) (l : List Nat) (f₂ : Nat), l.length ≤ f₁ → l.length ≤ f₂ →
      chunks16Go f₁ l = chunks16Go f₂ l := by
  intro f₁
  induction f₁ with
  | zero =>
    intro l f₂ hl _
    have hnil : l = [] := List.length_eq_zero.mp (Nat.le_zero.mp hl)
    subst hnil
    cases f₂ <;> rfl
  | succ f ih =>
    intro l f₂ hl hl₂
    cases l with
    | nil => cases f₂ <;> rfl
    | cons c rest =>
      cases f₂ with
      | zero => simp at hl₂
      | succ g =>
        rw [chunks16Go, chunks16Go]
        have hdrop : ((c :: rest).drop 16).length ≤ f := by
          rw [List.length_drop]
          simp only [List.length_cons] at hl ⊢
          omega
        have hdrop₂ : ((c :: rest).drop 16).length ≤ g := by
          rw [List.length_drop]
          simp only [List.length_cons] at hl₂ ⊢
          omega
        rw [ih ((c :: rest).drop 16) g hdrop hdrop₂]

/-- CBC decryption of a block sequence: each plaintext block is the block
decryption of the cipher block xored with the previous cipher block (the IV
for the first). -/
def cbcDecryptBlocks (D : List Nat → List Nat) (prev : List Nat) :
    List (List Nat) → List (List Nat)
  | [] => []
  | b :: bs => xorBytes (D b) prev :: cbcDecryptBlocks D b bs

/-- CBC decryption of a whole buffer. -/
def cbcDecrypt (D : List Nat → List Nat) (iv data : List Nat) : List Nat :=
  (cbcDecryptBlocks D iv (chunks16 data)).flatten

/-- CBC encryption of a block sequence: each cipher block is the block
encryption of the plaintext block xored with the previous cipher block. -/
def cbcEncryptBlocks (E : List Nat → List Nat) (prev : List Nat) :
    List (List Nat) → List (List Nat)
  | [] => []
  | p :: ps =>
    E (xorBytes p prev) :: cbcEncryptBlocks E (E (xorBytes p prev)) ps

/-- CBC encryption of a whole buffer. -/
def cbcEncrypt (E : List Nat → List Nat) (iv data : List Nat) : List Nat :=
  (cbcEncryptBlocks E iv (chunks16 data)).flatten

/-- Models `Buffer.writeUInt32BE`: the four big-endian bytes of a 32-bit
value. -/
def writeUInt32BE (v : Nat) : List Nat :=
  [v / 2 ^ 24 % 256, v / 2 ^ 16 % 256, v / 2 ^ 8 % 256, v % 256]

/-- Models lines 397–399 of `decryptAES128`: the default IV is a 16-byte
buffer of zeros with the segment index written big-endian at offset 12. -/
def defaultIV (segmentIndex : Nat) : List Nat :=
  List.replicate 12 0 ++ writeUInt32BE segmentIndex

/-- Models `decryptAES128` (lines 384–411).  A buffer whose length is not a
multiple of 16 is passed through unchanged; otherwise the IV is the declared
one or the index-derived default; `crypto.createDecipheriv` throws on a key
or IV whose length is not 16 bytes, the surrounding `try/catch` turns that
throw into returning the input unchanged; otherwise the buffer is CBC
decrypted with auto padding disabled.  `D` stands for the AES-128 block
decryption under `key`. -/
def decryptAES128 (D : List Nat → List Nat) (data key : List Nat)
    (iv : Option (List Nat)) (segmentIndex : Nat) : List Nat :=
  if data.length % 16 != 0 then data
  else
    let ivBuffer := match iv with
      | some i => i
      | none => defaultIV segmentIndex
    if key.length != 16 || ivBuffer.length != 16 then data
    else cbcDecrypt D ivBuffer data

theorem xorBytes_cancel (x : List Nat) :
    ∀ y : List Nat, x.length ≤ y.length → xorBytes (xorBytes x y) y = x := by
  induction x with
  | nil => intro y _; rfl
  | cons a xs ih =>
    intro y hy
    cases y with
    | nil => simp at hy
    | cons b ys =>
      simp only [xorBytes, List.zipWith_cons_cons] at *
      rw [Nat.xor_cancel_right b a, ih ys (by simpa using hy)]

theorem xorBytes_length (a b : List Nat) :
    (xorBytes a b).length = min a.length b.length :=
  List.length_zipWith ..

theorem cbcDecryptBlocks_lengths (D : List Nat → List Nat)
    (hDlen : ∀ b : List Nat, b.length = 16 → (D b).length = 16) :
    ∀ (bs : List (List Nat)) (prev : List Nat),
      (∀ b ∈ bs, b.length = 16) → prev.length = 16 →
      ∀ p ∈ cbcDecryptBlocks D prev bs, p.length = 16 := by
  intro bs
  induction bs with
  | nil => intro prev _ _ p hp; simp [cbcDecryptBlocks] at hp
  | cons b rest ih =>
    intro prev hbs hprev p hp
    have hb : b.length = 16 := hbs b (by simp)
    rcases List.mem_cons.mp hp with rfl | hmem
    · rw [xorBytes_length, hDlen b hb, hprev]
      simp
    · exact ih b (fun x hx => hbs x (by simp [hx])) hb p hmem

theorem cbcEncryptBlocks_inv (E D : List Nat → List Nat)
    (hED : ∀ b : List Nat, b.length = 16 → E (D b) = b)
    (hDlen : ∀ b : List Nat, b.length = 16 → (D b).length = 16) :
    ∀ (bs : List (List Nat)) (prev : List Nat),
      (∀ b ∈ bs, b.length = 16) → prev.length = 16 →
      cbcEncryptBlocks E prev (cbcDecryptBlocks D prev bs) = bs := by
  intro bs
  induction bs with
  | nil => intro prev _ _; rfl
  | cons b rest ih =>
    intro prev hbs hprev
    have hb : b.length = 16 := hbs b (by simp)
    have hcancel : xorBytes (xorBytes (D b) prev) prev = D b :=
      xorBytes_cancel (D b) prev (by rw [hDlen b hb, hprev])
    simp only [cbcDecryptBlocks, cbcEncryptBlocks, hcancel, hED b hb]
    rw [ih b (fun x hx => hbs x (by simp [hx])) hb]

theorem chunks16_eq_of_ne_nil (l : List Nat) (h : l ≠ []) :
    chunks16 l = l.take 16 :: chunks16 (l.drop 16) := by
  cases l with
  | nil => exact absurd rfl h
  | cons c rest =>
    show chunks16Go (c :: rest).length (c :: rest) = _
    rw [List.length_cons, chunks16Go]
    congr 1
    exact chunks16Go_congr rest.length ((c :: rest).drop 16) _
      (by rw [List.length_drop]; simp only [List.length_cons]; omega) le_rfl

theorem chunks16Go_blocks_length :
    ∀ (fuel : Nat) (l : List Nat), l.length ≤ fuel → l.length % 16 = 0 →
      ∀ b ∈ chunks16Go fuel l, b.length = 16 := by
  intro fuel
  induction fuel with
  | zero =>
    intro l hl _ b hb
    have hnil : l = [] := List.length_eq_zero.mp (Nat.le_zero.mp hl)
    subst hnil
    simp [chunks16Go] at hb
  | succ f ih =>
    intro l hl hmod b hb
    cases l with
    | nil => simp [chunks16Go] at hb
    | cons c rest =>
      rw [chunks16Go] at hb
      have hge : 16 ≤ (c :: rest).length := by
        by_contra hlt
        push_neg at hlt
        rw [Nat.mod_eq_of_lt hlt] at hmod
        simp at hmod
      rcases List.mem_cons.mp hb with rfl | hmem
      · rw [List.length_take]
        omega
      · have h1 : ((c :: rest).drop 16).length ≤ f := by
          rw [List.length_drop]
          simp only [List.length_cons] at hl ⊢
          omega
        have h2 : ((c :: rest).drop 16).length % 16 = 0 := by
          rw [List.length_drop]
          omega
        exact ih _ h1 h2 b hmem

theorem chunks16_blocks_length (data : List Nat) (h : data.length % 16 = 0) :
    ∀ b ∈ chunks16 data, b.length = 16 :=
  chunks16Go_blocks_length data.length data le_rfl h

theorem chunks16_flatten (bs : List (List Nat)) (h : ∀ b ∈ bs, b.length = 16) :
    chunks16 bs.flatten = bs := by
  induction bs with
  | nil => rfl
  | cons b rest ih =>
    have hb : b.length = 16 := h b (by simp)
    have hbne : b ++ rest.flatten ≠ [] := by
      intro hcontra
      have hbnil : b = [] := by
        cases b with
        | nil => rfl
        | cons x xs => simp at hcontra
      simp [hbnil] at hb
    rw [List.flatten_cons, chunks16_eq_of_ne_nil _ hbne, List.take_left' hb,
      List.drop_left' hb, ih (fun x hx => h x (by simp [hx]))]

theorem chunks16Go_flatten :
    ∀ (fuel : Nat) (l : List Nat), l.length ≤ fuel →
      (chunks16Go fuel l).flatten = l := by
  intro fuel
  induction fuel with
  | zero =>
    intro l hl
    have hnil : l = [] := List.length_eq_zero.mp (Nat.le_zero.mp hl)
    subst hnil
    rfl
  | succ f ih =>
    intro l hl
    cases l with
    | nil => rfl
    | cons c rest =>
      rw [chunks16Go, List.flatten_cons, ih ((c :: rest).drop 16)
        (by rw [List.length_drop]; simp only [List.length_cons] at hl ⊢; omega)]
      exact List.take_append_drop 16 (c :: rest)

theorem flatten_chunks16 (l : List Nat) : (chunks16 l).flatten = l :=
  chunks16Go_flatten l.length l le_rfl

/-- The CBC round-trip law: re-encrypting a CBC decryption with the inverse
block cipher reproduces the ciphertext, for block-aligned input. -/
theorem cbc_roundtrip (E D : List Nat → List Nat) (iv data : List Nat)
    (hED : ∀ b : List Nat, b.length = 16 → E (D b) = b)
    (hDlen : ∀ b : List Nat, b.length = 16 → (D b).length = 16)
    (hiv : iv.length = 16) (hdata : data.length % 16 = 0) :
    cbcEncrypt E iv (cbcDecrypt D iv data) = data := by
  unfold cbcEncrypt cbcDecrypt
  have hblocks := chunks16_blocks_length data hdata
  have hplen : ∀ p ∈ cbcDecryptBlocks D iv (chunks16 data), p.length = 16 :=
    cbcDecryptBlocks_lengths D hDlen (chunks16 data) iv hblocks hiv
  rw [chunks16_flatten _ hplen,
    cbcEncryptBlocks_inv E D hED hDlen (chunks16 data) iv hblocks hiv]
  exact flatten_chunks16 data

theorem defaultIV_length (i : Nat) : (defaultIV i).length = 16 := by
  simp [defaultIV, writeUInt32BE]

/-- Claim C5.  With no declared IV, `decryptAES128` at segment index `i`
decrypts in CBC mode under the 16-byte IV whose first 12 bytes are zero and
whose last 4 bytes are the big-endian encoding of `i`; re-encrypting the
resulting plaintext with the inverse block cipher under the same IV
reproduces the original ciphertext. -/
theorem aes_default_iv_roundtrip (E D : List Nat → List Nat)
    (data key : List Nat) (i : Nat)
    (hED : ∀ b : List Nat, b.length = 16 → E (D b) = b)
    (hDlen : ∀ b : List Nat, b.length = 16 → (D b).length = 16)
    (hdata : data.length % 16 = 0) (hkey : key.length = 16) (hi : i < 2 ^ 32) :
    decryptAES128 D data key none i = cbcDecrypt D (defaultIV i) data ∧
    (defaultIV i).length = 16 ∧
    (defaultIV i).take 12 = List.replicate 12 0 ∧
    (defaultIV i).drop 12
      = [i / 2 ^ 24, i / 2 ^ 16 % 256, i / 2 ^ 8 % 256, i % 256] ∧
    i / 2 ^ 24 * 2 ^ 24 + i / 2 ^ 16 % 256 * 2 ^ 16 + i / 2 ^ 8 % 256 * 2 ^ 8
        + i % 256 = i ∧
    cbcEncrypt E (defaultIV i) (decryptAES128 D data key none i) = data := by
  have hfirst : decryptAES128 D data key none i = cbcDecrypt D (defaultIV i) data := by
    simp [decryptAES128, hdata, hkey, defaultIV_length]
  refine ⟨hfirst, defaultIV_length i, ?_, ?_, ?_, ?_⟩
  · exact List.take_left' (by simp)
  · rw [defaultIV, List.drop_left' (by simp)]
    have h24 : i / 2 ^ 24 % 256 = i / 2 ^ 24 := by
      apply Nat.mod_eq_of_lt
      omega
    rw [writeUInt32BE, h24]
  · omega
  · rw [hfirst]
    exact cbc_roundtrip E D (defaultIV i) data hED hDlen (defaultIV_length i) hdata

/-- Witness for claim C5 at segment index 5, identity block cipher, a
16-byte buffer and a 16-byte key. -/
theorem aes_default_iv_roundtrip_witness :
    decryptAES128 (fun b => b) (List.range 16) (List.replicate 16 7) none 5
        = cbcDecrypt (fun b => b) (defaultIV 5) (List.range 16) ∧
    cbcEncrypt (fun b => b) (defaultIV 5)
        (decryptAES128 (fun b => b) (List.range 16) (List.replicate 16 7) none 5)
      = List.range 16 := by
  have h := aes_default_iv_roundtrip (fun b => b) (fun b => b) (List.range 16)
    (List.replicate 16 7) 5 (fun _ _ => rfl) (fun _ hb => hb)
    (by decide) (by decide) (by decide)
  exact ⟨h.1, h.2.2.2.2.2⟩

/-- Claim C6.  `decryptAES128` is a total function of its inputs; an input
whose length is not a multiple of 16 is returned unchanged, and the
conditions under which Node's `createDecipheriv` would throw (key or
declared IV not 16 bytes) also return the original ciphertext unchanged —
the `try/catch` of the source converts the throw into a pass-through. -/
theorem decryptAES128_total_passthrough (D : List Nat → List Nat)
    (data key : List Nat) (iv : Option (List Nat)) (i : Nat) :
    (data.length % 16 ≠ 0 → decryptAES128 D data key iv i = data) ∧
    (key.length ≠ 16 → decryptAES128 D data key iv i = data) ∧
    (∀ ivb, iv = some ivb → ivb.length ≠ 16 →
      decryptAES128 D data key iv i = data) := by
  refine ⟨?_, ?_, ?_⟩
  · intro h
    simp [decryptAES128, h]
  · intro h
    by_cases hd : data.length % 16 = 0
    · simp [decryptAES128, hd, h]
    · simp [decryptAES128, hd]
  · intro ivb hiv h
    subst hiv
    by_cases hd : data.length % 16 = 0
    · simp [decryptAES128, hd, h]
    · simp [decryptAES128, hd]

/-- Witness for claim C6: a 3-byte buffer is passed through unchanged. -/
theorem decryptAES128_total_passthrough_witness :
    decryptAES128 (fun b => b) [1, 2, 3] (List.replicate 16 7) none 0 = [1, 2, 3] := by
  have h := decryptAES128_total_passthrough (fun b => b) [1, 2, 3]
    (List.replicate 16 7) none 0
  exact h.1 (by decide)

/-! ## Progress accounting -/

/-- Models `Math.round((d / t) * 100)` for natural `d` and positive `t`:
for non-negative arguments JavaScript's `Math.round x` is `⌊x + 1/2⌋`, and
`⌊100 d / t + 1/2⌋ = (200 d + t) / (2 t)` in integer division. -/
def jsRoundPct (d t : Nat) : Nat :=
  (200 * d + t) / (2 * t)

/-- Models line 181 of `downloadFile`:
`totalSize > 0 ? Math.round((downloadedSize / totalSize) * 100) : 0`. -/
def fileProgress (totalSize downloaded : Nat) : Nat :=
  if 0 < totalSize then jsRoundPct downloaded totalSize else 0

/-- The successive `task.progress` values written by `downloadFile`'s data
handler, one per received chunk, starting from accumulated size `acc`. -/
def fileProgressTraceAux (totalSize acc : Nat) : List Nat → List Nat
  | [] => []
  | c :: cs =>
    fileProgress totalSize (acc + c) :: fileProgressTraceAux totalSize (acc + c) cs

/-- The progress values written during one `downloadFile` run receiving the
given chunk sizes. -/
def fileProgressTrace (totalSize : Nat) (chunks : List Nat) : List Nat :=
  fileProgressTraceAux totalSize 0 chunks

/-- Models line 361 of `downloadM3u8`: the progress written after segment
`i` of `n` is `Math.round(((i + 1) / n) * 100)`. -/
def hlsProgressTrace (n : Nat) : List Nat :=
  (List.range n).map (fun i => jsRoundPct (i + 1) n)

theorem jsRoundPct_le_100 {d t : Nat} (ht : 0 < t) (h : d ≤ t) :
    jsRoundPct d t ≤ 100 := by
  unfold jsRoundPct
  have : 200 * d + t < 101 * (2 * t) := by omega
  have hlt : (200 * d + t) / (2 * t) < 101 :=
    (Nat.div_lt_iff_lt_mul (by omega)).mpr (by omega)
  omega

theorem jsRoundPct_mono {d d' : Nat} (t : Nat) (h : d ≤ d') :
    jsRoundPct d t ≤ jsRoundPct d' t :=
  Nat.div_le_div_right (by omega)

theorem fileProgress_le_100 {totalSize d : Nat}
    (h : d ≤ totalSize ∨ totalSize = 0) : fileProgress totalSize d ≤ 100 := by
  unfold fileProgress
  rcases h with h | h
  · split
    · exact jsRoundPct_le_100 (by assumption) h
    · omega
  · simp [h]

theorem fileProgress_mono (totalSize : Nat) {d d' : Nat} (h : d ≤ d') :
    fileProgress totalSize d ≤ fileProgress totalSize d' := by
  unfold fileProgress
  split
  · exact jsRoundPct_mono totalSize h
  · exact le_rfl

theorem fileProgressTraceAux_mem (totalSize : Nat) :
    ∀ (chunks : List Nat) (acc : Nat),
      ∀ p ∈ fileProgressTraceAux totalSize acc chunks,
        ∃ d, acc ≤ d ∧ d ≤ acc + chunks.sum ∧ p = fileProgress totalSize d := by
  intro chunks
  induction chunks with
  | nil => intro acc p hp; simp [fileProgressTraceAux] at hp
  | cons c cs ih =>
    intro acc p hp
    rw [fileProgressTraceAux] at hp
    rcases List.mem_cons.mp hp with rfl | hmem
    · exact ⟨acc + c, by omega, by simp [List.sum_cons], rfl⟩
    · rcases ih (acc + c) p hmem with ⟨d, hd1, hd2, hd3⟩
      refine ⟨d, by omega, ?_, hd3⟩
      simp only [List.sum_cons]
      omega

theorem fileProgressTraceAux_chain (totalSize : Nat) :
    ∀ (chunks : List Nat) (acc : Nat),
      List.Chain' (· ≤ ·) (fileProgressTraceAux totalSize acc chunks) := by
  intro chunks
  induction chunks with
  | nil => intro acc; simp [fileProgressTraceAux]
  | cons c cs ih =>
    intro acc
    rw [fileProgressTraceAux, List.chain'_cons']
    refine ⟨?_, ih (acc + c)⟩
    intro y hy
    cases cs with
    | nil => simp [fileProgressTraceAux] at hy
    | cons c' cs' =>
      simp only [fileProgressTraceAux, List.head?_cons, Option.mem_def,
        Option.some.injEq] at hy
      subst hy
      exact fileProgress_mono totalSize (by omega)

/-- Claim C7.  Along one `downloading` run, every written progress value is
an integer in `[0, 100]` (the values are naturals, so only the upper bound
is substantive) and the sequence of written values is non-decreasing — on
the direct-file path under the HTTP client's guarantee that a fixed-length
response delivers at most `Content-Length` bytes (`totalSize = 0` covers a
missing header, pinning progress at 0), and on the HLS path
unconditionally.  No value inside a run is ever reset; the reset to 0
happens only in `retryTask`. -/
theorem progress_invariant :
    (∀ (totalSize : Nat) (chunks : List Nat),
      chunks.sum ≤ totalSize ∨ totalSize = 0 →
      (∀ p ∈ fileProgressTrace totalSize chunks, p ≤ 100) ∧
      List.Chain' (· ≤ ·) (fileProgressTrace totalSize chunks)) ∧
    (∀ n : Nat,
      (∀ p ∈ hlsProgressTrace n, p ≤ 100) ∧
      List.Chain' (· ≤ ·) (hlsProgressTrace n)) := by
  constructor
  · intro totalSize chunks henv
    constructor
    · intro p hp
      rcases fileProgressTraceAux_mem totalSize chunks 0 p hp with ⟨d, _, hd2, rfl⟩
      apply fileProgress_le_100
      rcases henv with h | h
      · exact Or.inl (by omega)
      · exact Or.inr h
    · exact fileProgressTraceAux_chain totalSize chunks 0
  · intro n
    constructor
    · intro p hp
      rcases List.mem_map.mp hp with ⟨i, hi, rfl⟩
      have hin : i < n := List.mem_range.mp hi
      exact jsRoundPct_le_100 (by omega) (by omega)
    · rw [hlsProgressTrace, List.chain'_map]
      cases n with
      | zero => simp
      | succ m =>
        rw [List.chain'_range_succ]
        intro i _
        exact jsRoundPct_mono (m + 1) (by omega)

/-- Witness for claim C7: a direct-file run advertising 10 bytes and
receiving chunks of 4 and 6 bytes, and a 3-segment HLS run. -/
theorem progress_invariant_witness :
    List.Chain' (· ≤ ·) (fileProgressTrace 10 [4, 6]) ∧
    List.Chain' (· ≤ ·) (hlsProgressTrace 3) :=
  ⟨(progress_invariant.1 10 [4, 6] (Or.inl (by decide))).2,
    (progress_invariant.2 3).2⟩

/-! ## Retrying a task -/

/-- The reset applied by `retryTask` (lines 487–492) to the task with the
given id: status back to `pending`, `progress` and `downloadedSize` to 0,
`error` cleared.  The code mutates the found task object in place; since
the map holds that same object, this is an update of the stored task. -/
def resetStore (tasks : List OfflineDownloadTask) (taskId : String) :
    List OfflineDownloadTask :=
  tasks.map fun t' =>
    if t'.id == taskId then
      { t' with
        status := TaskStatus.pending
        progress := 0
        downloadedSize := 0
        error := none }
    else t'

/-- Models `retryTask` (lines 477–496): an unknown id and a currently
`downloading` task throw; otherwise the task is reset and the download is
restarted (the restart itself is the segment loop modelled by `segVisit`). -/
def retryTask (tasks : List OfflineDownloadTask) (taskId : String) :
    Except String (List OfflineDownloadTask) :=
  match tasks.find? (fun t => t.id == taskId) with
  | none => Except.error "任务不存在"
  | some t =>
    if t.status == TaskStatus.downloading then Except.error "任务正在下载中"
    else Except.ok (resetStore tasks taskId)

/-- The indices visited by the segment loop `for (let i = i0; i < n; i++)`
of `downloadM3u8` (line 343), with fuel for structural recursion. -/
def segVisitGo : Nat → Nat → Nat → List Nat
  | 0, _, _ => []
  | fuel + 1, n, i => if i < n then i :: segVisitGo fuel n (i + 1) else []

/-- The indices the segment loop visits when started at `i`. -/
def segVisit (n i : Nat) : List Nat :=
  segVisitGo (n - i) n i

theorem segVisitGo_eq_range' :
    ∀ (fuel n i : Nat), segVisitGo fuel n i = List.range' i (min fuel (n - i)) := by
  intro fuel
  induction fuel with
  | zero => intro n i; simp [segVisitGo]
  | succ f ih =>
    intro n i
    rw [segVisitGo]
    by_cases h : i < n
    · rw [if_pos h, ih n (i + 1)]
      have hmin : min (f + 1) (n - i) = min f (n - (i + 1)) + 1 := by omega
      rw [hmin, List.range'_succ]
    · rw [if_neg h]
      have : n - i = 0 := by omega
      simp [this]

/-- A failed task with non-trivial progress left over, used to exercise
`retryTask`. -/
def demoFailedTask : OfflineDownloadTask :=
  { newTask demoData "idA" 0 with
    status := TaskStatus.error
    progress := 42
    downloadedSize := 7
    error := some "HTTP 500" }

/-- A task currently downloading, used to exercise `retryTask`. -/
def demoDownloadingTask : OfflineDownloadTask :=
  { newTask demoData "idA" 0 with status := TaskStatus.downloading }

/-- Claim C9.  `retryTask` throws for a task currently `downloading` (and
for an unknown id); otherwise it resets the task's `progress` and
`downloadedSize` to 0, clears its `error`, sets its status to `pending`,
leaves every other task in place, and the restarted segment loop visits the
segments from index 0 up — `List.range n` — regardless of any earlier
partial progress. -/
theorem retry_task_resets (tasks : List OfflineDownloadTask) (taskId : String) :
    (∀ t, tasks.find? (fun t' => t'.id == taskId) = some t →
      t.status = TaskStatus.downloading →
      retryTask tasks taskId = Except.error "任务正在下载中") ∧
    (∀ t, tasks.find? (fun t' => t'.id == taskId) = some t →
      t.status ≠ TaskStatus.downloading →
      retryTask tasks taskId = Except.ok (resetStore tasks taskId) ∧
      (∀ t' ∈ resetStore tasks taskId, t'.id = taskId →
        t'.progress = 0 ∧ t'.downloadedSize = 0 ∧ t'.error = none ∧
        t'.status = TaskStatus.pending) ∧
      (∀ t' ∈ tasks, t'.id ≠ taskId → t' ∈ resetStore tasks taskId)) ∧
    (tasks.find? (fun t' => t'.id == taskId) = none →
      retryTask tasks taskId = Except.error "任务不存在") ∧
    (∀ n : Nat, segVisit n 0 = List.range n) := by
  refine ⟨?_, ?_, ?_, ?_⟩
  · intro t ht hdl
    simp [retryTask, ht, hdl]
  · intro t ht hdl
    refine ⟨by simp [retryTask, ht, hdl], ?_, ?_⟩
    · intro t' ht' hid
      rcases List.mem_map.mp ht' with ⟨x, _, rfl⟩
      by_cases hx : x.id == taskId
      · simp only [hx, if_pos rfl]
        exact ⟨rfl, rfl, rfl, rfl⟩
      · rw [if_neg (by simp [hx])] at hid ⊢
        exact absurd hid (by simpa using hx)
    · intro t' ht' hid
      apply List.mem_map.mpr
      exact ⟨t', ht', by simp [hid]⟩
  · intro hnone
    simp [retryTask, hnone]
  · intro n
    rw [segVisit, segVisitGo_eq_range']
    simp [List.range_eq_range']

/-- Witness for claim C9: retrying a `downloading` task throws, and
retrying a failed task with leftover progress yields the reset pending
task. -/
theorem retry_task_resets_witness :
    retryTask [demoDownloadingTask] "idA" = Except.error "任务正在下载中" ∧
    retryTask [demoFailedTask] "idA" = Except.ok [{ demoFailedTask with
      status := TaskStatus.pending
      progress := 0
      downloadedSize := 0
      error := none }] := by
  constructor
  · exact (retry_task_resets [demoDownloadingTask] "idA").1 demoDownloadingTask
      (by rfl) rfl
  · exact (((retry_task_resets [demoFailedTask] "idA").2.1 demoFailedTask
      (by rfl) (by decide)).1).trans (by rfl)

/-! ## Cancellation of an in-flight HLS download

The interleaving between a running `downloadM3u8`/`startDownload` execution
and a concurrent `deleteTask` call is modelled as a small-step machine.  One
run step is either one iteration of the segment loop — the
`controller.signal.aborted` check of line 344 followed by fetching one
segment — or, once the loop is over, the merge/write/finish of lines
367–377 together with `startDownload`'s terminal bookkeeping (completion at
lines 147–149, or the catch at lines 150–155 for the cancellation throw).
`deleteTask` (lines 506–541) runs atomically between run steps: it aborts
the controller, unlinks the recorded output file if one is recorded, and
removes the task from the store. -/

structure RunState where
  nextSegment : Nat
  aborted : Bool
  filePath : Option String
  disk : List String
  status : TaskStatus
  err : Option String
  inStore : Bool
deriving DecidableEq

/-- The run state with `nextSegment = i`, before any terminal event: the
state right after `startDownload` set `downloading` and `i` segments have
been fetched. -/
def midState (i : Nat) : RunState where
  nextSegment := i
  aborted := false
  filePath := none
  disk := []
  status := TaskStatus.downloading
  err := none
  inStore := true

/-- The state right after the segment list (of length `n`) was parsed. -/
def runInit : RunState :=
  midState 0

/-- One step of the run, as described in the section comment. -/
def runStep (n : Nat) (fileName : String) (s : RunState) : RunState :=
  match s.status with
  | TaskStatus.downloading =>
    if s.nextSegment < n then
      if s.aborted then
        { s with
          status := TaskStatus.error
          err := some "下载已取消" }
      else
        { s with nextSegment := s.nextSegment + 1 }
    else
      { s with
        disk := fileName :: s.disk
        filePath := some fileName
        status := TaskStatus.completed }
  | _ => s

/-- `k` consecutive run steps. -/
def runSteps (n : Nat) (fileName : String) : Nat → RunState → RunState
  | 0, s => s
  | k + 1, s => runSteps n fileName k (runStep n fileName s)

/-- The `deleteTask` call: abort the token, unlink the recorded output file
(if any; the `.m3u8` directory branch never fires for manager-created
paths), drop the task from the store. -/
def deleteAction (s : RunState) : RunState :=
  { s with
    aborted := true
    disk := match s.filePath with
      | none => s.disk
      | some p => s.disk.erase p
    inStore := false }

/-- An execution in which the run performs `k` steps, `deleteTask` then runs
atomically, and the run is left to finish (`n + 2` further steps always
reach a terminal state). -/
def cancelScenario (n k : Nat) (fileName : String) : RunState :=
  runSteps n fileName (n + 2) (deleteAction (runSteps n fileName k runInit))

theorem runSteps_succ_comm (n : Nat) (fileName : String) :
    ∀ (k : Nat) (s : RunState),
      runSteps n fileName (k + 1) s = runStep n fileName (runSteps n fileName k s) := by
  intro k
  induction k with
  | zero => intro s; rfl
  | succ m ih =>
    intro s
    show runSteps n fileName (m + 1) (runStep n fileName s) = _
    rw [ih (runStep n fileName s)]
    rfl

theorem runSteps_frozen (n : Nat) (fileName : String) :
    ∀ (k : Nat) (s : RunState), s.status ≠ TaskStatus.downloading →
      runSteps n fileName k s = s := by
  intro k
  induction k with
  | zero => intro s _; rfl
  | succ m ih =>
    intro s hs
    have hstep : runStep n fileName s = s := by
      cases hst : s.status
      case downloading => exact absurd hst hs
      all_goals simp [runStep, hst]
    show runSteps n fileName m (runStep n fileName s) = s
    rw [hstep]
    exact ih s hs

theorem runSteps_add (n : Nat) (fileName : String) :
    ∀ (a b : Nat) (s : RunState),
      runSteps n fileName (b + a) s
        = runSteps n fileName a (runSteps n fileName b s) := by
  intro a
  induction a with
  | zero => intro b s; rfl
  | succ m ih =>
    intro b s
    rw [show b + (m + 1) = (b + m) + 1 from rfl, runSteps_succ_comm, ih,
      ← runSteps_succ_comm]

theorem runStep_mid (n : Nat) (fileName : String) (i : Nat) (h : i < n) :
    runStep n fileName (midState i) = midState (i + 1) := by
  rw [runStep]
  show (if i < n then _ else _) = _
  rw [if_pos h]
  rfl

theorem runSteps_init_le (n : Nat) (fileName : String) :
    ∀ k : Nat, k ≤ n → runSteps n fileName k runInit = midState k := by
  intro k
  induction k with
  | zero => intro _; rfl
  | succ m ih =>
    intro hk
    rw [runSteps_succ_comm, ih (by omega), runStep_mid n fileName m (by omega)]

theorem runStep_mid_finish (n : Nat) (fileName : String) :
    runStep n fileName (midState n) = { midState n with
      disk := [fileName]
      filePath := some fileName
      status := TaskStatus.completed } := by
  rw [runStep]
  show (if n < n then _ else _) = _
  rw [if_neg (show ¬ n < n by omega)]
  rfl

/-- Claim C2, counterexample.  With one segment, the run finishes its only
abort check before `deleteTask` arrives; the delete aborts the token, finds
no recorded output file, and removes the task — and the still-running
execution then merges, writes the output file and completes.  The task was
in flight when deleted, yet it reaches `completed` and its output file
survives on disk. -/
theorem delete_during_flight_counterexample :
    (runSteps 1 "src_vid_1.ts" 1 runInit).status = TaskStatus.downloading ∧
    (cancelScenario 1 1 "src_vid_1.ts").status = TaskStatus.completed ∧
    (cancelScenario 1 1 "src_vid_1.ts").err = none ∧
    (cancelScenario 1 1 "src_vid_1.ts").disk = ["src_vid_1.ts"] := by
  refine ⟨rfl, rfl, rfl, rfl⟩

/-- The state `deleteTask` leaves when it runs on `midState k`: token
aborted, no recorded file to unlink, task dropped from the store. -/
def deletedMidState (k : Nat) : RunState where
  nextSegment := k
  aborted := true
  filePath := none
  disk := []
  status := TaskStatus.downloading
  err := none
  inStore := false

/-- The terminal state of a run whose abort was observed at a segment
check. -/
def cancelledState (k : Nat) : RunState where
  nextSegment := k
  aborted := true
  filePath := none
  disk := []
  status := TaskStatus.error
  err := some "下载已取消"
  inStore := false

/-- Claim C2, amended.  `deleteTask` always aborts the task's cancellation
token, and cancellation is cooperative: when the delete arrives while at
least one segment-boundary abort check is still ahead (the run is
`downloading` with `nextSegment < n`), the interrupted run terminates with
status `error` carrying the cancellation message `下载已取消`, never
reaches `completed`, and no output file for the task exists on disk; but a
delete arriving after the final abort check (while the merge/write of an
in-flight run is still pending) lets the run complete and leave its output
file behind, as the counterexample shows. -/
theorem delete_cancels_cooperatively (n k : Nat) (fileName : String)
    (hk : (runSteps n fileName k runInit).status = TaskStatus.downloading)
    (hseg : (runSteps n fileName k runInit).nextSegment < n) :
    (∀ s : RunState, (deleteAction s).aborted = true) ∧
    (cancelScenario n k fileName).status = TaskStatus.error ∧
    (cancelScenario n k fileName).err = some "下载已取消" ∧
    (cancelScenario n k fileName).status ≠ TaskStatus.completed ∧
    (cancelScenario n k fileName).disk = [] ∧
    (cancelScenario n k fileName).inStore = false := by
  have hkn : k ≤ n := by
    by_contra hgt
    push_neg at hgt
    have hm : k = (n + 1) + (k - (n + 1)) := by omega
    have hcomp : runSteps n fileName k runInit
        = runSteps n fileName (k - (n + 1))
            (runSteps n fileName (n + 1) runInit) := by
      conv_lhs => rw [hm]
      exact runSteps_add n fileName (k - (n + 1)) (n + 1) runInit
    have hfin : runSteps n fileName (n + 1) runInit = { midState n with
        disk := [fileName]
        filePath := some fileName
        status := TaskStatus.completed } := by
      rw [runSteps_succ_comm, runSteps_init_le n fileName n le_rfl,
        runStep_mid_finish]
    rw [hcomp, hfin, runSteps_frozen n fileName _ _ (by simp [midState])] at hk
    simp [midState] at hk
  have hstate := runSteps_init_le n fileName k hkn
  rw [hstate] at hseg
  have hseg' : k < n := hseg
  have hdel : deleteAction (runSteps n fileName k runInit) = deletedMidState k := by
    rw [hstate]
    rfl
  have hstep : runStep n fileName (deletedMidState k) = cancelledState k := by
    rw [runStep]
    show (if k < n then _ else _) = _
    rw [if_pos hseg']
    rfl
  have hstop : cancelScenario n k fileName = cancelledState k := by
    rw [cancelScenario, hdel]
    show runSteps n fileName (n + 1) (runStep n fileName (deletedMidState k)) = _
    rw [hstep]
    exact runSteps_frozen n fileName (n + 1) _ (by simp [cancelledState])
  rw [hstop]
  exact ⟨fun s => rfl, rfl, rfl, by simp [cancelledState], rfl, rfl⟩

/-- Witness for the amended claim C2: a two-segment run deleted after its
first segment observes the abort at the second segment check, errors with
the cancellation message, and leaves no file on disk. -/
theorem delete_cancels_cooperatively_witness :
    (cancelScenario 2 1 "src_vid_1.ts").status = TaskStatus.error ∧
    (cancelScenario 2 1 "src_vid_1.ts").err = some "下载已取消" ∧
    (cancelScenario 2 1 "src_vid_1.ts").disk = [] := by
  have h := delete_cancels_cooperatively 2 1 "src_vid_1.ts" (by rfl) (by decide)
  exact ⟨h.2.1, h.2.2.1, h.2.2.2.2.1⟩

/-! ## Output paths and the delete branch -/

/-- Models `path.join(dir, name)` for a directory path without a trailing
separator (normalization of `.`/`..` segments is not modelled; the code
joins a fixed download directory with a generated file name). -/
def pathJoin (dir name : String) : String :=
  dir ++ "/" ++ name

/-- The `filePath` values a task record held by the manager can carry: none
before any run finished (`addTask`, line 107–120, sets no `filePath`), the
`downloadFile` assignment of line 188 (`path.join(downloadDir,
task.fileName)` with the `generateFileName` name from `addTask`), or the
`downloadM3u8` assignment of lines 370–374. -/
inductive ManagerFilePath (dir : String) : Option String → Prop
  | created : ManagerFilePath dir none
  | direct (s v : String) (e : Nat) :
      ManagerFilePath dir (some (pathJoin dir (generateFileName s v e)))
  | hls (s v : String) (e : Nat) :
      ManagerFilePath dir
        (some (pathJoin dir (s ++ "_" ++ v ++ "_" ++ toString e ++ ".ts")))

/-- Models the file-removal part of `deleteTask` (lines 517–537): nothing
when no `filePath` is recorded; every file of the surrounding directory
when the path ends in `.m3u8`; exactly the recorded file otherwise.
`dirFiles` stands for the `readdir` listing the directory branch would
remove. -/
def deleteRemovals (filePath : Option String) (dirFiles : List String) :
    List String :=
  match filePath with
  | none => []
  | some p => if sEndsWith p ".m3u8" then dirFiles else [p]

theorem generateFileName_ends_ts (s v : String) (e : Nat) :
    sEndsWith (generateFileName s v e) ".ts" = true :=
  sEndsWith_append_ts (s ++ "_" ++ v ++ "_" ++ toString e)

theorem pathJoin_ends_ts (dir x : String) :
    sEndsWith (pathJoin dir (x ++ ".ts")) ".ts" = true := by
  rw [show pathJoin dir (x ++ ".ts") = ((dir ++ "/") ++ x) ++ ".ts" from
    (strAppend_assoc (dir ++ "/") x ".ts").symm]
  exact sEndsWith_append_ts ((dir ++ "/") ++ x)

/-- Claim C10.  Every output path the manager itself records ends in `.ts`
(the deterministic file name is `source + "_" + videoId + "_" +
episodeIndex + ".ts"`, and the HLS path writes the same template), so it
never ends in `.m3u8`: the directory-removal branch of `deleteTask` is
unreachable for manager-created tasks, and deletion removes at most one
output file — exactly the recorded one. -/
theorem manager_filePath_ts (dir : String) :
    (∀ (s v : String) (e : Nat),
      s ++ "_" ++ v ++ "_" ++ toString e ++ ".ts" = generateFileName s v e ∧
      sEndsWith (generateFileName s v e) ".ts" = true) ∧
    (∀ fp, ManagerFilePath dir fp →
      (∀ dirFiles, (deleteRemovals fp dirFiles).length ≤ 1) ∧
      (∀ p, fp = some p →
        sEndsWith p ".ts" = true ∧ sEndsWith p ".m3u8" = false ∧
        ∀ dirFiles, deleteRemovals fp dirFiles = [p])) := by
  constructor
  · intro s v e
    exact ⟨rfl, generateFileName_ends_ts s v e⟩
  · intro fp hfp
    have hts : ∀ p, fp = some p → sEndsWith p ".ts" = true := by
      intro p hp
      cases hfp with
      | created => simp at hp
      | direct s v e =>
        have hp' : p = pathJoin dir (generateFileName s v e) :=
          (Option.some.injEq .. ▸ hp).symm
        rw [hp']
        exact pathJoin_ends_ts dir (s ++ "_" ++ v ++ "_" ++ toString e)
      | hls s v e =>
        have hp' : p = pathJoin dir (s ++ "_" ++ v ++ "_" ++ toString e ++ ".ts") :=
          (Option.some.injEq .. ▸ hp).symm
        rw [hp']
        exact pathJoin_ends_ts dir (s ++ "_" ++ v ++ "_" ++ toString e)
    constructor
    · intro dirFiles
      cases hcase : fp with
      | none => simp [deleteRemovals]
      | some p =>
        have hm : sEndsWith p ".m3u8" = false :=
          not_m3u8_of_ends_ts (hts p hcase)
        simp [deleteRemovals, hm]
    · intro p hp
      have h1 := hts p hp
      have h2 := not_m3u8_of_ends_ts h1
      refine ⟨h1, h2, ?_⟩
      intro dirFiles
      rw [hp]
      simp [deleteRemovals, h2]

/-- Witness for claim C10: deleting a task whose recorded path was produced
by the direct-file path removes exactly that one file, even when the
directory holds others. -/
theorem manager_filePath_ts_witness :
    deleteRemovals (some (pathJoin "/downloads" (generateFileName "src" "vid" 1)))
        ["other1.ts", "other2.ts"]
      = [pathJoin "/downloads" (generateFileName "src" "vid" 1)] := by
  exact (((manager_filePath_ts "/downloads").2 _
    (ManagerFilePath.direct "src" "vid" 1)).2 _ rfl).2.2 ["other1.ts", "other2.ts"]

end MoonTV
